import Mathlib

/-!
Verification of the ChatPaper PDF-structuring and token-budgeting subsystems.

Python strings are modelled as `List Char`, Python ints as `Int`, Python
dicts (which preserve insertion order) as association lists updated in
place.  Fallible operations (negative-index list access, page lookup)
return `Option`.  Font sizes are modelled as exact rationals.
-/

/-- Characters stripped by Python `str.strip()` (the ASCII whitespace set,
sufficient for the texts handled here). -/
def isPySpace (c : Char) : Bool :=
  c = ' ' || c = '\t' || c = '\n' || c = '\r' || c = '\x0b' || c = '\x0c'

/-- Python `str.strip()`: drop leading and trailing whitespace. -/
def pyStrip (s : List Char) : List Char :=
  ((s.dropWhile isPySpace).reverse.dropWhile isPySpace).reverse

/-- Python `str.split(sep)` for a one-character separator: the result is a
non-empty list of (possibly empty) segments. -/
def pySplit1 (sep : Char) : List Char → List (List Char)
  | [] => [[]]
  | c :: rest =>
    match pySplit1 sep rest with
    | [] => [[c]]
    | h :: t => if c = sep then [] :: h :: t else (c :: h) :: t

/-- Python `sep.join(parts)`. -/
def pyJoin (sep : List Char) : List (List Char) → List Char
  | [] => []
  | [p] => p
  | p :: rest => p ++ sep ++ pyJoin sep rest

/-- Boolean list-prefix test. -/
def startsWithB : List Char → List Char → Bool
  | [], _ => true
  | _ :: _, [] => false
  | a :: as, b :: bs => a = b && startsWithB as bs

/-- Python `needle in hay` (substring containment). -/
def isSubstrB (needle : List Char) : List Char → Bool
  | [] => needle.isEmpty
  | c :: rest => startsWithB needle (c :: rest) || isSubstrB needle rest

/-- Python `hay.find(needle)`: index of the first occurrence, `-1` if absent. -/
def pyFind (needle : List Char) : List Char → Int
  | [] => if needle.isEmpty then 0 else -1
  | c :: rest =>
    if startsWithB needle (c :: rest) then 0
    else
      let r := pyFind needle rest
      if r = -1 then -1 else r + 1

/-- Normalise a Python slice index against a list of length `n`:
negative indices count from the end, then the result is clamped to `[0, n]`. -/
def pySliceIdx (n : Nat) (i : Int) : Nat :=
  let j := if i < 0 then i + n else i
  if j < 0 then 0 else if j > n then n else j.toNat

/-- Python `l[:i]`. -/
def pySliceTo (l : List α) (i : Int) : List α :=
  l.take (pySliceIdx l.length i)

/-- Python `l[i:]`. -/
def pySliceFrom (l : List α) (i : Int) : List α :=
  l.drop (pySliceIdx l.length i)

/-- Python `l[a:b]`. -/
def pySlice (l : List α) (a b : Int) : List α :=
  let lo := pySliceIdx l.length a
  let hi := pySliceIdx l.length b
  (l.take hi).drop lo

/-- Python `l[i]` for a possibly negative index, `none` on an out-of-range
access (an `IndexError` in Python). -/
def pyIdx (l : List α) (i : Int) : Option α :=
  let j := if i < 0 then i + l.length else i
  if h : 0 ≤ j ∧ j.toNat < l.length then some (l.get ⟨j.toNat, h.2⟩) else none

/-- Python `str.upper()` (ASCII, sufficient for the canonical section names). -/
def pyUpper (s : List Char) : List Char :=
  s.map Char.toUpper

/-- Python `str.lower()` (ASCII). -/
def pyLower (s : List Char) : List Char :=
  s.map Char.toLower

/-- Python `s.replace(old, new)`: replace every non-overlapping occurrence,
scanning left to right; with `old = ""` the replacement is inserted around
every character, matching CPython. -/
def pyReplaceGo (old new : List Char) : Nat → List Char → List Char
  | _, [] => []
  | 0, l => l
  | fuel + 1, c :: rest =>
    if startsWithB old (c :: rest) then
      new ++ pyReplaceGo old new fuel (rest.drop (old.length - 1))
    else
      c :: pyReplaceGo old new fuel rest

def pyReplace (s old new : List Char) : List Char :=
  if old.isEmpty then
    new ++ (s.flatMap fun c => [c] ++ new)
  else pyReplaceGo old new s.length s

/-- Python `s.rstrip(":")`: drop every trailing colon. -/
def pyRStripColon (s : List Char) : List Char :=
  (s.reverse.dropWhile (· = ':')).reverse

/-- Worker for `pySplitWs`: `acc` is the reversed current word. -/
def pySplitWsGo : List Char → List Char → List (List Char)
  | [], acc => if acc.isEmpty then [] else [acc.reverse]
  | c :: rest, acc =>
    if isPySpace c then
      if acc.isEmpty then pySplitWsGo rest [] else acc.reverse :: pySplitWsGo rest []
    else pySplitWsGo rest (c :: acc)

/-- Python `s.split()` (no argument): split on whitespace runs, no empties. -/
def pySplitWs (s : List Char) : List (List Char) :=
  pySplitWsGo s []

/-- An insertion-ordered dictionary (`dict` in Python): assigning to an
existing key updates it in place, a new key is appended at the end. -/
def dictSet (d : List (List Char × α)) (k : List Char) (v : α) :
    List (List Char × α) :=
  match d with
  | [] => [(k, v)]
  | (k', v') :: rest =>
    if k' = k then (k', v) :: rest else (k', v') :: dictSet rest k v

/-- Dictionary lookup. -/
def dictGet (d : List (List Char × α)) (k : List Char) : Option α :=
  match d with
  | [] => none
  | (k', v') :: rest => if k' = k then some v' else dictGet rest k

/-! ## Paper: section indexing (`Paper._get_all_page_index`) -/

/-- The canonical section-name list of `Paper._get_all_page_index`. -/
def sectionList : List (List Char) :=
  ["Abstract".data,
   "Introduction".data, "Related Work".data, "Background".data,
   "Preliminary".data, "Problem Formulation".data,
   "Methods".data, "Methodology".data, "Method".data, "Approach".data,
   "Approaches".data,
   "Materials and Methods".data, "Experiment Settings".data,
   "Experiment".data, "Experimental Results".data, "Evaluation".data,
   "Experiments".data,
   "Results".data, "Findings".data, "Data Analysis".data,
   "Discussion".data, "Results and Discussion".data, "Conclusion".data,
   "References".data]

/-- One section name tested against one page: the inner body of the loop in
`_get_all_page_index`.  "Abstract" matches as a bare substring; every name
matches as the literal `name + "\n"` or `NAME + "\n"`. -/
def sectionUpdate (acc : List (List Char × Nat)) (i : Nat) (txt : List Char)
    (name : List Char) : List (List Char × Nat) :=
  if name == "Abstract".data && isSubstrB name txt then dictSet acc name i
  else if isSubstrB (name ++ ['\n']) txt then dictSet acc name i
  else if isSubstrB (pyUpper name ++ ['\n']) txt then dictSet acc name i
  else acc

/-- Whether `_get_all_page_index` finds `name` on a page with text `txt`. -/
def pageMatches (name txt : List Char) : Bool :=
  (name == "Abstract".data && isSubstrB name txt)
    || isSubstrB (name ++ ['\n']) txt
    || isSubstrB (pyUpper name ++ ['\n']) txt

def gapiGo (i : Nat) (acc : List (List Char × Nat)) :
    List (List Char) → List (List Char × Nat)
  | [] => acc
  | t :: rest =>
    gapiGo (i + 1) (sectionList.foldl (fun a n => sectionUpdate a i t n) acc) rest

/-- `Paper._get_all_page_index`: scan every page in order; each hit assigns
the page index into the dict (overwriting earlier hits). -/
def getAllPageIndex (texts : List (List Char)) : List (List Char × Nat) :=
  gapiGo 0 [] texts

/-! ## Paper: section text assembly (`Paper._get_all_page`) -/

/-- `start_i` / `end_i` computation: `find(name)`, falling back to
`find(name.upper())` when the plain form is absent. -/
def findHeadIdx (txt name : List Char) : Int :=
  if pyFind name txt = -1 then pyFind (pyUpper name) txt else pyFind name txt

/-- The text assembled for one `SectionSpan` entry.  `nextE` is the next
entry of the dict, if any; `endp` its start page (or the page count).
Mirrors the body of the loop in `_get_all_page`, including the
`page_i == end_page` arm, which is unreachable because
`range(start_page, end_page)` excludes `end_page`. -/
def gapEntryText (texts : List (List Char)) (name : List Char) (startp : Nat)
    (nextE : Option (List Char)) (endp : Nat) : List Char :=
  if (endp : Int) - startp = 0 then
    match nextE with
    | none => []
    | some nname =>
      let t := texts.getD startp []
      pySlice t (findHeadIdx t name) (findHeadIdx t nname)
  else
    ((List.range' startp (endp - startp)).map fun p =>
      if p = startp then
        pySliceFrom (texts.getD p []) (findHeadIdx (texts.getD startp []) name)
      else if p < endp then texts.getD p []
      else if p = endp then
        match nextE with
        | none => []
        | some nname =>
          pySliceTo (texts.getD p []) (findHeadIdx (texts.getD startp []) nname)
      else []).flatten

/-- `'-\n'` removal followed by newline-to-space replacement. -/
def gapClean (s : List Char) : List Char :=
  pyReplace (pyReplace s "-\n".data []) "\n".data " ".data

/-- `Paper._get_all_page`, iterating the `SectionSpan` dict in insertion
order with one-entry lookahead. -/
def gapBuild (texts : List (List Char)) :
    List (List Char × Nat) → List (List Char × List Char)
  | [] => []
  | (name, startp) :: rest =>
    let (nextE, endp) :=
      match rest with
      | [] => (none, texts.length)
      | (nname, np) :: _ => (some nname, np)
    (name, gapClean (gapEntryText texts name startp nextE endp)) :: gapBuild texts rest

/-! ## Paper: title detection (`Paper.get_title`) -/

structure Span where
  text : List Char
  size : Rat
  deriving DecidableEq

structure PLine where
  spans : List Span
  deriving DecidableEq

structure Block where
  btype : Int
  lines : List PLine
  deriving DecidableEq

structure Page where
  text : List Char
  blocks : List Block
  deriving DecidableEq

/-- The (page index, first-span text, first-span font size) triples that both
passes of `get_title` iterate: blocks of type 0 with a non-empty first line
holding at least one span. -/
def titleCandidates (pages : List Page) : List (Nat × List Char × Rat) :=
  pages.enum.flatMap fun pi =>
    pi.2.blocks.filterMap fun b =>
      match b.lines with
      | [] => none
      | l0 :: _ =>
        match l0.spans with
        | [] => none
        | s0 :: _ => if b.btype = 0 then some (pi.1, s0.text, s0.size) else none

/-- `abs(a - b) < 0.3` on exact rationals, written by cross-multiplication
(`|a.num * b.den - b.num * a.den| * 10 < 3 * a.den * b.den`) so that it
evaluates without rational normalisation. -/
def ratNear03 (a b : Rat) : Bool :=
  ((a.num * b.den - b.num * a.den).natAbs : Int) * 10 < 3 * (a.den * b.den)

def insSorted (x : Rat) : List Rat → List Rat
  | [] => [x]
  | y :: ys => if x ≤ y then x :: y :: ys else y :: insSorted x ys

/-- Python `list.sort()` (ascending) on the collected font sizes. -/
def pySort (l : List Rat) : List Rat :=
  l.foldr insSorted []

/-- The font-size test of `get_title`'s second pass:
`abs(fs - max_font_sizes[-1]) < 0.3 or abs(fs - max_font_sizes[-2]) < 0.3`,
with Python's short-circuit `or`; `none` models an `IndexError` from a
negative index out of range. -/
def titleCond (msf : List Rat) (fs : Rat) : Option Bool :=
  match pyIdx msf (-1) with
  | none => none
  | some l1 =>
    if ratNear03 fs l1 then some true
    else
      match pyIdx msf (-2) with
      | none => none
      | some l2 => some (ratNear03 fs l2)

/-- Second pass of `get_title`: accumulate qualifying fragments and track the
title page (updated whenever the font condition holds). -/
def titleGo (msf : List Rat) :
    List (Nat × List Char × Rat) → List Char → Nat → Option (List Char × Nat)
  | [], cur, tp => some (cur, tp)
  | (i, txt, fs) :: rest, cur, tp =>
    match titleCond msf fs with
    | none => none
    | some b =>
      if b then
        let cur' :=
          if txt.length > 4 && !isSubstrB "arXiv".data txt then
            if cur.isEmpty then txt else cur ++ [' '] ++ txt
          else cur
        titleGo msf rest cur' i
      else titleGo msf rest cur tp

/-- `Paper.get_title`: returns the title (newlines replaced by spaces) and
the title page. -/
def getTitle (pages : List Page) : Option (List Char × Nat) :=
  let cands := titleCandidates pages
  let msf := pySort ((0 : Rat) :: cands.map fun c => c.2.2)
  match titleGo msf cands [] 0 with
  | none => none
  | some (cur, tp) => some (pyReplace cur "\n".data " ".data, tp)

/-- The sorted font-size list (`max_font_sizes` after `sort()`). -/
def titleMsf (pages : List Page) : List Rat :=
  pySort ((0 : Rat) :: (titleCandidates pages).map fun c => c.2.2)

/-- Whether a candidate block qualifies as a title fragment: the font-size
condition of `get_title` holds, the text is longer than 4 characters and
does not contain "arXiv". -/
def fragQualifies (msf : List Rat) (c : Nat × List Char × Rat) : Bool :=
  (titleCond msf c.2.2).getD false
    && (c.2.1.length > 4 && !isSubstrB "arXiv".data c.2.1)

/-- No block of the document qualifies as a title fragment. -/
def noTitleFragment (pages : List Page) : Bool :=
  (titleCandidates pages).all fun c => !fragQualifies (titleMsf pages) c

/-! ## Paper construction (`Paper.__init__` / `parse_pdf` / `get_paper_info`) -/

structure PaperModel where
  title : List Char
  titlePage : Nat
  sectionTexts : List (List Char × List Char)
  deriving DecidableEq

/-- `Paper(path)` with no explicit title: title detection, section indexing,
section assembly, then the synthetic `"title"` and `"paper_info"` keys.
`paper_info` is `self.pdf[self.title_page].get_text()` with the detected
Abstract text removed by `str.replace` (all occurrences). -/
def parsePaper (pages : List Page) : Option PaperModel :=
  match getTitle pages with
  | none => none
  | some (title, tp) =>
    let texts := pages.map Page.text
    let spd := getAllPageIndex texts
    let std := dictSet (gapBuild texts spd) "title".data title
    match pyIdx texts tp with
    | none => none
    | some fpt =>
      let abstractText := (dictGet std "Abstract".data).getD []
      some ⟨title, tp, dictSet std "paper_info".data (pyReplace fpt abstractText [])⟩

/-! ## TokenManager (`chat_paper_simple.TokenManager`)

The tokenizer (`tiktoken`, an external library) is abstracted as a pair of
functions; `count_tokens(text)` is the length of the encoding.  The float
products `int(x * 0.4)` and `int(x * 0.5)` of `_truncate_balanced` are
modelled exactly below. -/

structure Encoding where
  encode : List Char → List Nat
  decode : List Nat → List Char

structure TokenManager where
  maxTokenNum : Int
  enc : Encoding

/-- `TokenManager.count_tokens`. -/
def countTokens (m : TokenManager) (text : List Char) : Nat :=
  (m.enc.encode text).length

/-- The error the specification's `InvalidBudget` rejection would carry.
The Python implementation never raises, so the embeddings below only ever
produce `Except.ok`. -/
inductive TMError where
  | invalidBudget
  deriving DecidableEq

/-- Python `int(n * 0.4)` for an int `n`: truncation toward zero of the
binary64 product; exact for the small magnitudes used in this file. -/
def pyIntMul04 (n : Int) : Int :=
  Int.tdiv (2 * n) 5

/-- Python `int(n * 0.5)`: the product by 0.5 is exact in binary64, so this
is truncation toward zero of `n / 2`. -/
def pyIntMul05 (n : Int) : Int :=
  Int.tdiv n 2

/-- `TokenManager._clean_truncation`: drop a dangling final sentence
fragment shorter than 50 characters, then strip. -/
def cleanTruncation (text : List Char) : List Char :=
  let sentences := pySplit1 '.' text
  let last := (sentences.getLast?).getD []
  let text' :=
    if sentences.length > 1 && !(pyStrip last).isEmpty && last.length < 50 then
      pyJoin ['.'] sentences.dropLast ++ ['.']
    else text
  pyStrip text'

/-- `TokenManager._truncate_front`. -/
def truncateFront (m : TokenManager) (text : List Char) (maxT : Int) :
    List Char :=
  let tokens := m.enc.encode text
  if (tokens.length : Int) > maxT then
    cleanTruncation (m.enc.decode (pySliceTo tokens maxT))
  else text

/-- The elision marker of `_truncate_balanced`. -/
def balancedSep : List Char :=
  "\n\n[...内容因长度限制有所省略...]\n\n".data

/-- `TokenManager._truncate_balanced`: keep 40% front / 40% back; if the
combination still exceeds the budget, re-split 50/50 of the budget left
after the separator's own token cost. -/
def truncateBalanced (m : TokenManager) (text : List Char) (maxT : Int) :
    List Char :=
  let tokens := m.enc.encode text
  if (tokens.length : Int) ≤ maxT then text
  else
    let frontTokens := pyIntMul04 maxT
    let backTokens := pyIntMul04 maxT
    let frontPart := m.enc.decode (pySliceTo tokens frontTokens)
    let backPart := m.enc.decode (pySliceFrom tokens (-backTokens))
    let combined := frontPart ++ balancedSep ++ backPart
    let combined :=
      if (countTokens m combined : Int) > maxT then
        let sepTokens : Int := countTokens m balancedSep
        let avail := maxT - sepTokens
        let ft2 := pyIntMul05 avail
        let bt2 := avail - ft2
        m.enc.decode (pySliceTo tokens ft2) ++ balancedSep
          ++ m.enc.decode (pySliceFrom tokens (-bt2))
      else combined
    cleanTruncation combined

/-- The section labels of `_truncate_sections_priority`, highest priority
first, in source order. -/
def prioritySections : List (List Char) :=
  ["Title:".data, "Paper_info:".data, "Abstract:".data,
   "Introduction:".data, "Method:".data, "Methods:".data,
   "Methodology:".data, "Approach:".data, "Approaches:".data,
   "Results:".data, "Experimental Results:".data, "Findings:".data,
   "Conclusion:".data, "Discussion:".data, "Results and Discussion:".data,
   "Related Work:".data, "Background:".data, "Preliminary:".data,
   "Problem Formulation:".data,
   "Experiments:".data, "Experiment:".data, "Evaluation:".data,
   "Experiment Settings:".data,
   "References:".data]

/-- Line-splitting pass of `_truncate_sections_priority`: each line whose
stripped form starts with a priority label opens a new segment; the current
segment is saved (stripped) under the label with its trailing colons
removed. -/
def segGo : List (List Char) → List (List Char × List Char) → List Char →
    List Char → List (List Char × List Char)
  | [], secs, curSec, curCont =>
    if (pyStrip curCont).isEmpty then secs
    else dictSet secs curSec (pyStrip curCont)
  | line :: rest, secs, curSec, curCont =>
    match prioritySections.find? (fun n => startsWithB n (pyStrip line)) with
    | some name =>
      let secs' :=
        if (pyStrip curCont).isEmpty then secs
        else dictSet secs curSec (pyStrip curCont)
      segGo rest secs' (pyRStripColon name) (line ++ ['\n'])
    | none => segGo rest secs curSec (curCont ++ line ++ ['\n'])

/-- The `sections` dict built by `_truncate_sections_priority` (initial
segment label `"Header"`). -/
def segmentSections (text : List Char) : List (List Char × List Char) :=
  segGo (pySplit1 '\n' text) [] "Header".data []

/-- The per-section truncation marker of `_truncate_sections_priority`. -/
def truncMarker : List Char :=
  "\n\n[...该章节因长度限制被截断...]\n\n".data

/-- First loop of `_truncate_sections_priority`: walk the priority list,
greedily appending whole segments; on overflow, front-truncate that segment
when at least 100 tokens remain, then stop.  Returns the accumulated text
and the used-token counter (which the truncated segment does not update). -/
def prioLoop (m : TokenManager) (segs : List (List Char × List Char))
    (maxT : Int) : List (List Char) → Int → List Char → List Char × Int
  | [], used, res => (res, used)
  | nm :: rest, used, res =>
    match dictGet segs (pyRStripColon nm) with
    | none => prioLoop m segs maxT rest used res
    | some content =>
      let st : Int := countTokens m content
      if used + st ≤ maxT then
        prioLoop m segs maxT rest (used + st) (res ++ content ++ "\n\n".data)
      else
        let remaining := maxT - used
        if remaining > 100 then
          (res ++ truncateFront m content remaining ++ truncMarker, used)
        else (res, used)

/-- Second loop of `_truncate_sections_priority`: append the remaining
non-priority segments, in dict insertion order, while the budget allows. -/
def otherLoop (m : TokenManager) (maxT : Int) :
    List (List Char × List Char) → Int → List Char → List Char
  | [], _, res => res
  | (key, content) :: rest, used, res =>
    if (key ++ ":".data) ∈ prioritySections then otherLoop m maxT rest used res
    else
      let st : Int := countTokens m content
      if used + st ≤ maxT then
        otherLoop m maxT rest (used + st) (res ++ content ++ "\n\n".data)
      else res

/-- `TokenManager._truncate_sections_priority`. -/
def truncateSectionsPriority (m : TokenManager) (text : List Char)
    (maxT : Int) : List Char :=
  let segs := segmentSections text
  let ru := prioLoop m segs maxT prioritySections 0 []
  cleanTruncation (otherLoop m maxT segs ru.2 ru.1)

/-- `TokenManager.smart_truncate`.  The Python method never raises; the
`Except` result type exists so that the specification's `InvalidBudget`
rejection is statable, and every branch is `Except.ok`. -/
def smartTruncate (m : TokenManager) (text : List Char) (reserved : Int)
    (strategy : String) : Except TMError (List Char) :=
  let textTokens : Int := countTokens m text
  let maxContentTokens := m.maxTokenNum - reserved
  if textTokens ≤ maxContentTokens then .ok text
  else if strategy = "front" then .ok (truncateFront m text maxContentTokens)
  else if strategy = "balanced" then .ok (truncateBalanced m text maxContentTokens)
  else if strategy = "sections" then
    .ok (truncateSectionsPriority m text maxContentTokens)
  else .ok (truncateBalanced m text maxContentTokens)

/-- Payload of an `ok` result (`[]` for an error). -/
def okD : Except TMError (List Char) → List Char
  | .ok s => s
  | .error _ => []

/-- Whether an `Except` result is a normal return. -/
def isOkE : Except TMError (List Char) → Bool
  | .ok _ => true
  | .error _ => false

/-- A concrete one-token-per-character tokenizer used to witness the
tokenizer hypotheses of the theorems below. -/
def charEnc : Encoding :=
  ⟨fun s => s.map Char.toNat, fun l => l.map Char.ofNat⟩

/-! ## AuthorExtractor (`PaperInfoExtractor._extract_authors`)

The two helper heuristics `_is_likely_author_line` and
`_extract_author_names` are taken as parameters: the claim settled below is
decided entirely by the title-anchoring phase, which returns the sentinel
before either helper runs, and the theorem is proved for every choice of
the helpers. -/

/-- The "not mentioned" sentinel `未提及`. -/
def notMentioned : List Char :=
  "未提及".data

/-- `PaperInfoExtractor._clean_title`: collapse whitespace (newlines first
replaced by spaces), strip, then remove one trailing `*`/`†`/`‡`, strip. -/
def collapseWsGo (prevSpace : Bool) : List Char → List Char
  | [] => []
  | c :: rest =>
    if isPySpace c then
      if prevSpace then collapseWsGo true rest
      else ' ' :: collapseWsGo true rest
    else c :: collapseWsGo false rest

def collapseWs (s : List Char) : List Char :=
  collapseWsGo false s

def cleanTitle (t : List Char) : List Char :=
  let s := pyStrip (collapseWs (pyReplace t "\n".data " ".data))
  let s' :=
    match s.getLast? with
    | some c => if c = '*' || c = '†' || c = '‡' then s.dropLast else s
    | none => s
  pyStrip s'

/-- Index of the last line whose word set overlaps the title's word set in
more than half of the title's words (`title_end_index`). -/
def lastOverlapIdx (p : List Char → Bool) (ls : List (List Char)) :
    Option Nat :=
  ((ls.enum.filter fun x => p x.2).map Prod.fst).getLast?

/-- The scan over at most 7 lines after the title, stopping early at a line
mentioning "abstract" or "introduction" and keeping the lines the
`isLikely` heuristic accepts. -/
def collectAuthorLines (isLikely : List Char → Bool) :
    List (List Char) → List (List Char)
  | [] => []
  | l :: rest =>
    if isSubstrB "abstract".data (pyLower l)
        || isSubstrB "introduction".data (pyLower l) then []
    else if isLikely l then l :: collectAuthorLines isLikely rest
    else collectAuthorLines isLikely rest

/-- `PaperInfoExtractor._extract_authors`, parametric in the two helper
heuristics.  A `ZeroDivisionError` on an empty title word set is caught by
the surrounding `except` and yields the sentinel, as in the source. -/
def extractAuthorsP (isLikely : List Char → Bool)
    (extractNames : List Char → List Char)
    (firstPageText title : List Char) : List Char :=
  let lines := ((pySplit1 '\n' firstPageText).map pyStrip).filter
    fun l => !l.isEmpty
  if title.isEmpty then notMentioned
  else
    let titleWords := ((pySplitWs (pyLower (cleanTitle title))).dedup)
    if titleWords.isEmpty then notMentioned
    else
      let overlap := fun (l : List Char) =>
        let lw := (pySplitWs (pyLower l)).dedup
        decide (2 * titleWords.countP (fun w => decide (w ∈ lw))
          > titleWords.length)
      match lastOverlapIdx overlap lines with
      | none => notMentioned
      | some te =>
        let hi := min (te + 8) lines.length
        let authorLines :=
          collectAuthorLines isLikely ((lines.drop (te + 1)).take (hi - (te + 1)))
        if authorLines.isEmpty then notMentioned
        else extractNames (pyJoin [' '] authorLines)

/-! ## Specification-side definitions for the section-index claim -/

/-- Modelled from the spec's words for claim C1: the FIRST page index at
which a canonical section name is found. -/
def firstFoundIndex (texts : List (List Char)) (name : List Char) :
    Option Nat :=
  (List.range texts.length).find? fun i => pageMatches name (texts.getD i [])

/-- The LAST page index at which a canonical section name is found (what
`_get_all_page_index` actually records). -/
def lastFoundIndex (texts : List (List Char)) (name : List Char) :
    Option Nat :=
  ((List.range texts.length).filter fun i =>
    pageMatches name (texts.getD i [])).getLast?

/-- Recursive form of `lastFoundIndex` (the last index `i` with
`pageMatches name (texts.getD i [])`), convenient for induction. -/
def lastIdxRec (name : List Char) : List (List Char) → Option Nat
  | [] => none
  | t :: ts =>
    match lastIdxRec name ts with
    | some j => some (j + 1)
    | none => if pageMatches name t then some 0 else none

/-! ## Concrete fixtures used by witnesses and counterexamples -/

/-- A token manager with the default 4096-token ceiling over the
one-token-per-character tokenizer. -/
def mChar : TokenManager :=
  ⟨4096, charEnc⟩

/-- Three pages where "Introduction" spans a full middle page and is
followed by "Conclusion" at the top of the third page. -/
def c5texts : List (List Char) :=
  ["Abstract\nIntroduction\nalpha beta\n".data,
   "middle page\n".data,
   "pre text\nConclusion\nend\n".data]

/-- A page whose only block is body text in font size 10. -/
def c6page0 : Page :=
  ⟨"PAGE0".data, [⟨0, [⟨[⟨"smalltext".data, 10⟩]⟩]⟩]⟩

/-- A page whose only block is in the document-largest font size 20, so the
title page becomes page 1. -/
def c6page1 : Page :=
  ⟨"PAGE1".data, [⟨0, [⟨[⟨"BIG TITLE HERE".data, 20⟩]⟩]⟩]⟩

/-- The first-page text of the specification's author-extraction test. -/
def c8text : List Char :=
  "Jia-Feng Cai, Ying Peng, Donglin Wang1\nZhejiang University\nAbstract: ...".data

/-- The model `parsePaper` constructs from the two-page fixture. -/
def c6model : PaperModel :=
  ⟨"smalltext BIG TITLE HERE".data, 1,
   [("title".data, "smalltext BIG TITLE HERE".data),
    ("paper_info".data, "PAGE1".data)]⟩

/-- The token count of the segment stored under `k`, or 0 when absent. -/
def segTok (m : TokenManager) (segs : List (List Char × List Char))
    (k : List Char) : Int :=
  match dictGet segs k with
  | some c => (countTokens m c : Int)
  | none => 0

/-- An over-budget text whose Title segment alone exceeds the budget used in
the C3 counterexample. -/
def c3text : List Char :=
  "Title: ".data ++ List.replicate 60 'a' ++ "\nAbstract: ok.".data

/-- An over-budget text whose Title and Abstract segments fit the budget
used in the C3 witness. -/
def c3wtext : List Char :=
  "Title: T\nAbstract: good.\nReferences: ".data ++ List.replicate 80 'a'

/-! # Theorems -/

/-! ## C9: truncation is the identity under the budget -/

/-- C9: for every text, reserved token count and strategy, `smart_truncate`
returns the input unchanged whenever its token count is at most
`max_token_num - reserved_tokens`. -/
theorem C9_idempotent (m : TokenManager) (text : List Char) (r : Int)
    (s : String) (h : (countTokens m text : Int) ≤ m.maxTokenNum - r) :
    smartTruncate m text r s = .ok text := by
  unfold smartTruncate
  simp [h]

/-- Witness for C9 at a concrete manager, text and strategy. -/
theorem C9_witness :
    smartTruncate mChar "short text".data 1000 "sections" = .ok "short text".data :=
  C9_idempotent mChar "short text".data 1000 "sections" (by decide)

/-! ## C10: unrecognized strategies fall back to balanced truncation -/

/-- C10: for every strategy string other than "front", "balanced" and
"sections", `smart_truncate` produces exactly the output of the "balanced"
strategy. -/
theorem C10_fallback_balanced (m : TokenManager) (text : List Char) (r : Int)
    (s : String) (h1 : s ≠ "front") (h2 : s ≠ "balanced")
    (h3 : s ≠ "sections") :
    smartTruncate m text r s = smartTruncate m text r "balanced" := by
  unfold smartTruncate
  simp [h1, h2, h3]

/-- Witness for C10 at the concrete unrecognized strategy "priority". -/
theorem C10_witness :
    smartTruncate mChar "hi there.".data 4090 "priority"
      = smartTruncate mChar "hi there.".data 4090 "balanced" :=
  C10_fallback_balanced mChar "hi there.".data 4090 "priority"
    (by decide) (by decide) (by decide)

/-! ## C4: no InvalidBudget rejection exists -/

/-- Counterexample for C4: with `max_token_num = 4096` and
`reserved_tokens = 5000` the usable budget is negative, yet
`smart_truncate` returns normally with the empty string instead of
rejecting with an InvalidBudget error. -/
theorem C4_counterexample :
    ((mChar.maxTokenNum - 5000 : Int) ≤ 0)
      ∧ isOkE (smartTruncate mChar "hello".data 5000 "front") = true
      ∧ okD (smartTruncate mChar "hello".data 5000 "front") = [] :=
  ⟨by decide, by decide, by decide⟩

/-- C4 (amended): for every call whose usable budget is at most zero, the
token manager does not reject: `smart_truncate` returns normally (possibly
with empty or mangled text), never an InvalidBudget error. -/
theorem C4_no_rejection (m : TokenManager) (text : List Char) (r : Int)
    (s : String) (h : m.maxTokenNum - r ≤ 0) :
    isOkE (smartTruncate m text r s) = true := by
  simp only [smartTruncate]
  split_ifs <;> rfl

/-- Witness for C4 (amended) at a concrete over-reserved call. -/
theorem C4_witness :
    isOkE (smartTruncate mChar "some paper text".data 9999 "balanced") = true :=
  C4_no_rejection mChar "some paper text".data 9999 "balanced" (by decide)

/-! ## C1: section indexing records the last page, not the first -/

/-- Counterexample for C1: with "Introduction" present on both pages of a
two-page document, the spec's first-page reading gives page 0, but
`_get_all_page_index` maps the name to page 1 (each later hit overwrites
the stored index). -/
theorem C1_counterexample :
    firstFoundIndex ["Introduction\n".data, "Introduction\n".data]
        "Introduction".data = some 0
      ∧ dictGet (getAllPageIndex ["Introduction\n".data, "Introduction\n".data])
        "Introduction".data = some 1 :=
  ⟨by decide, by decide⟩

/-! ## C2: the truncation bound fails for balanced and sections -/

/-- Counterexample for C2: two over-budget inputs.  With usable budget 6,
the "balanced" strategy re-splits around a 23-token separator with a
negative remaining budget; the Python negative-slice arithmetic then keeps
most of the text and the result has 32 tokens.  With usable budget 21, the
"sections" strategy appends un-counted `"\n\n"` joiners and returns 23
tokens. -/
theorem C2_counterexample :
    ((countTokens mChar (List.replicate 20 'a') : Int) > mChar.maxTokenNum - 4090)
      ∧ ((countTokens mChar
          (okD (smartTruncate mChar (List.replicate 20 'a') 4090 "balanced")) : Int)
          > mChar.maxTokenNum - 4090)
      ∧ ((countTokens mChar "Title: ab\nAbstract: cd".data : Int)
          > mChar.maxTokenNum - 4075)
      ∧ ((countTokens mChar
          (okD (smartTruncate mChar "Title: ab\nAbstract: cd".data 4075 "sections")) : Int)
          > mChar.maxTokenNum - 4075) :=
  ⟨by decide, by decide, by decide, by decide⟩

/-! ## C5: the end-page prefix of a spanning section is never appended -/

/-- C5: at the concrete input `c5texts`, the "Introduction" entry spans from
page 0 to end page 2 and has the successor "Conclusion"; the assembled text
consists only of parts (a) and (b) — the end page's prefix "pre text"
before the "Conclusion" heading is absent, because the
`page_i == end_page` arm of `_get_all_page` is unreachable. -/
theorem C5_missing_end_page :
    dictGet (getAllPageIndex c5texts) "Introduction".data = some 0
      ∧ dictGet (getAllPageIndex c5texts) "Conclusion".data = some 2
      ∧ dictGet (gapBuild c5texts (getAllPageIndex c5texts)) "Introduction".data
        = some "Introduction alpha beta middle page ".data
      ∧ isSubstrB "pre text".data
        ((dictGet (gapBuild c5texts (getAllPageIndex c5texts))
          "Introduction".data).getD []) = false
      ∧ isSubstrB "pre text".data (c5texts.getD 2 []) = true :=
  ⟨by decide, by decide, by decide, by decide, by decide⟩

/-! ## C8: the specification's author-extraction example returns the sentinel -/

/-- Counterexample for C8: at the specification's exact input (first-page
text starting with the author line and title "A Study"), no line's word set
overlaps the title's words by more than half, so `_extract_authors` returns
the sentinel `未提及` — not three author names (the sentinel contains no
", " separator, so it cannot be a three-name joined output). -/
theorem C8_counterexample :
    extractAuthorsP (fun _ => false) (fun _ => []) c8text "A Study".data
        = notMentioned
      ∧ isSubstrB ",".data notMentioned = false :=
  ⟨by decide, by decide⟩

/-- C8 (amended): for every choice of the two helper heuristics, the author
extractor returns the "not mentioned" sentinel on the specification's
example input, and in particular its output does not contain
"Zhejiang University". -/
theorem C8_sentinel (f : List Char → Bool) (g : List Char → List Char) :
    extractAuthorsP f g c8text "A Study".data = notMentioned
      ∧ isSubstrB "Zhejiang University".data
        (extractAuthorsP f g c8text "A Study".data) = false :=
  ⟨rfl, rfl⟩

/-- Witness for C8 (amended) at concrete helper functions. -/
theorem C8_witness :
    extractAuthorsP (fun _ => true) (fun s => s) c8text "A Study".data
      = notMentioned :=
  (C8_sentinel (fun _ => true) (fun s => s)).1


/-! ## C6: `paper_info` comes from the title page, with all occurrences removed -/

/-- Counterexample for C6: in a two-page document whose largest-font block
sits on page 1, the title page is 1 and `get_paper_info` reads
`self.pdf[self.title_page]`, so `paper_info` is page 1's raw text "PAGE1",
not the first page's raw text "PAGE0". -/
theorem C6_counterexample :
    parsePaper [c6page0, c6page1] = some c6model
      ∧ dictGet c6model.sectionTexts "paper_info".data = some "PAGE1".data
      ∧ ([c6page0, c6page1].map Page.text)[0]? = some "PAGE0".data
      ∧ "PAGE1".data ≠ "PAGE0".data :=
  ⟨by decide, by decide, by decide, by decide⟩

theorem dictGet_dictSet_self (d : List (List Char × α)) (k : List Char)
    (v : α) : dictGet (dictSet d k v) k = some v := by
  induction d with
  | nil => simp [dictSet, dictGet]
  | cons p rest ih =>
    obtain ⟨k', v'⟩ := p
    by_cases h : k' = k
    · simp [dictSet, dictGet, h]
    · simp [dictSet, dictGet, h, ih]

theorem dictGet_dictSet_ne (d : List (List Char × α)) (k k' : List Char)
    (v : α) (h : k' ≠ k) : dictGet (dictSet d k v) k' = dictGet d k' := by
  have h' : ¬(k = k') := fun hh => h hh.symm
  induction d with
  | nil => simp [dictSet, dictGet, h']
  | cons p rest ih =>
    obtain ⟨k₀, v₀⟩ := p
    by_cases h0 : k₀ = k
    · subst h0
      simp [dictSet, dictGet, h']
    · by_cases h1 : k₀ = k'
      · simp [dictSet, dictGet, h0, h1, h]
      · simp [dictSet, dictGet, h0, h1, ih]

/-- C6 (amended): for every constructed model, the `paper_info` entry equals
the raw text of the page recorded as the title page (not necessarily page
0), with every occurrence of the detected Abstract section's text removed
by `str.replace` when an Abstract was detected, and unchanged otherwise. -/
theorem C6_paper_info_title_page (pages : List Page) (md : PaperModel)
    (h1 : parsePaper pages = some md) :
    dictGet md.sectionTexts "paper_info".data
      = (pyIdx (pages.map Page.text) md.titlePage).map fun fpt =>
          pyReplace fpt ((dictGet md.sectionTexts "Abstract".data).getD []) [] := by
  unfold parsePaper at h1
  rcases hg : getTitle pages with _ | ⟨t, tp⟩ <;> rw [hg] at h1
  · exact absurd h1 (by simp)
  · rcases hi : pyIdx (pages.map Page.text) tp with _ | fpt <;>
      simp only [hi] at h1
    · exact absurd h1 (by simp)
    · rw [Option.some_inj] at h1
      subst h1
      simp only
      rw [hi, dictGet_dictSet_self]
      simp only [Option.map_some']
      rw [dictGet_dictSet_ne _ _ _ _ (by decide),
        dictGet_dictSet_ne _ _ _ _ (by decide),
        dictGet_dictSet_ne _ _ _ _ (by decide)]

/-- Witness for C6 (amended) at the concrete two-page fixture. -/
theorem C6_witness :
    dictGet c6model.sectionTexts "paper_info".data
      = (pyIdx ([c6page0, c6page1].map Page.text) c6model.titlePage).map fun fpt =>
          pyReplace fpt
            ((dictGet c6model.sectionTexts "Abstract".data).getD []) [] :=
  C6_paper_info_title_page [c6page0, c6page1] c6model (by decide)

/-! ## C1: section indexing records the last hit -/

theorem sectionUpdate_eq (acc : List (List Char × Nat)) (i : Nat)
    (txt name : List Char) :
    sectionUpdate acc i txt name
      = if pageMatches name txt then dictSet acc name i else acc := by
  unfold sectionUpdate pageMatches
  cases h1 : (name == "Abstract".data && isSubstrB name txt) <;>
    cases h2 : isSubstrB (name ++ ['\n']) txt <;>
      cases h3 : isSubstrB (pyUpper name ++ ['\n']) txt <;>
        simp [h1, h2, h3]

theorem dictGet_secfold_notmem (i : Nat) (txt k : List Char)
    (names : List (List Char)) (h : k ∉ names) :
    ∀ acc, dictGet (names.foldl (fun a n => sectionUpdate a i txt n) acc) k
      = dictGet acc k := by
  induction names with
  | nil => intro acc; rfl
  | cons n ns ih =>
    intro acc
    have hkn : k ≠ n := fun he => h (he ▸ List.mem_cons_self n ns)
    have hns : k ∉ ns := fun he => h (List.mem_cons_of_mem n he)
    rw [List.foldl_cons, ih hns, sectionUpdate_eq]
    split
    · exact dictGet_dictSet_ne acc n k i hkn
    · rfl

theorem dictGet_secfold_mem (i : Nat) (txt k : List Char)
    (names : List (List Char)) (hnd : names.Nodup) (h : k ∈ names) :
    ∀ acc, dictGet (names.foldl (fun a n => sectionUpdate a i txt n) acc) k
      = if pageMatches k txt then some i else dictGet acc k := by
  induction names with
  | nil => exact absurd h (List.not_mem_nil k)
  | cons n ns ih =>
    intro acc
    rw [List.foldl_cons]
    rcases List.mem_cons.mp h with he | hm
    · subst he
      have hns : k ∉ ns := (List.nodup_cons.mp hnd).1
      rw [dictGet_secfold_notmem i txt k ns hns, sectionUpdate_eq]
      split
      · exact dictGet_dictSet_self acc k i
      · rfl
    · have hkn : k ≠ n := by
        rintro rfl
        exact (List.nodup_cons.mp hnd).1 hm
      rw [ih (List.nodup_cons.mp hnd).2 hm, sectionUpdate_eq]
      split
      · rfl
      · split
        · exact dictGet_dictSet_ne acc n k i hkn
        · rfl

theorem gapiGo_dictGet (k : List Char) (hk : k ∈ sectionList) :
    ∀ (texts : List (List Char)) (i : Nat) (acc : List (List Char × Nat)),
      dictGet (gapiGo i acc texts) k
        = match lastIdxRec k texts with
          | some j => some (i + j)
          | none => dictGet acc k := by
  intro texts
  induction texts with
  | nil => intro i acc; rfl
  | cons t ts ih =>
    intro i acc
    have hnd : sectionList.Nodup := by decide
    rw [show gapiGo i acc (t :: ts)
        = gapiGo (i + 1)
            (sectionList.foldl (fun a n => sectionUpdate a i t n) acc) ts
      from rfl]
    rw [ih (i + 1) _]
    rw [show lastIdxRec k (t :: ts)
        = match lastIdxRec k ts with
          | some j => some (j + 1)
          | none => if pageMatches k t then some 0 else none
      from rfl]
    rcases hrec : lastIdxRec k ts with _ | j
    · simp only
      rw [dictGet_secfold_mem i t k sectionList hnd hk acc]
      split
      · simp
      · rfl
    · simp only
      congr 1
      omega

theorem lastIdxRec_eq (name : List Char) :
    ∀ texts : List (List Char), lastIdxRec name texts = lastFoundIndex texts name := by
  intro texts
  induction texts with
  | nil => rfl
  | cons t ts ih =>
    unfold lastFoundIndex
    rw [List.length_cons, List.range_succ_eq_map]
    rw [List.filter_cons]
    have hcomp :
        (List.map Nat.succ (List.range ts.length)).filter
            (fun i => pageMatches name ((t :: ts).getD i []))
          = List.map Nat.succ ((List.range ts.length).filter
              (fun i => pageMatches name (ts.getD i []))) := by
      rw [List.filter_map]
      rfl
    rw [show lastIdxRec name (t :: ts)
        = match lastIdxRec name ts with
          | some j => some (j + 1)
          | none => if pageMatches name t then some 0 else none
      from rfl]
    rw [ih]
    unfold lastFoundIndex
    rcases hZ : (List.range ts.length).filter
        (fun i => pageMatches name (ts.getD i [])) with _ | ⟨z, zs⟩
    · rw [hZ] at hcomp
      simp only [List.map_nil] at hcomp
      simp only [List.getD_cons_zero, hcomp, List.getLast?_nil]
      split <;> rfl
    · rw [hZ] at hcomp
      have hne : (z :: zs).getLast? = some ((z :: zs).getLast (by simp)) :=
        List.getLast?_eq_getLast _ _
      simp only [List.getD_cons_zero, hcomp, hne]
      have hmapLast :
          (List.map Nat.succ (z :: zs)).getLast?
            = some ((z :: zs).getLast (by simp) + 1) := by
        rw [List.getLast?_map, hne]
        rfl
      split
      · rw [List.getLast?_cons, hmapLast]
        simp
      · rw [hmapLast]

/-- C1 (amended): for every document and each canonical section name,
`_get_all_page_index` maps the name to the LAST page index at which it is
found (each later hit overwrites the stored index); names never found are
absent from the mapping. -/
theorem C1_last_page_index (texts : List (List Char)) (name : List Char)
    (h : name ∈ sectionList) :
    dictGet (getAllPageIndex texts) name = lastFoundIndex texts name := by
  unfold getAllPageIndex
  rw [gapiGo_dictGet name h texts 0 [], ← lastIdxRec_eq]
  rcases lastIdxRec name texts with _ | j
  · rfl
  · simp

/-- Witness for C1 (amended) at the three-page fixture and "Conclusion". -/
theorem C1_witness :
    dictGet (getAllPageIndex c5texts) "Conclusion".data
      = lastFoundIndex c5texts "Conclusion".data :=
  C1_last_page_index c5texts "Conclusion".data (by decide)

/-! ## C2: the bound holds for the front strategy -/

theorem pyStrip_within (s : List Char) : pyStrip s <:+: s := by
  refine ⟨List.takeWhile isPySpace s,
    (List.takeWhile isPySpace (List.dropWhile isPySpace s).reverse).reverse, ?_⟩
  have h2 := List.takeWhile_append_dropWhile
    (p := isPySpace) (l := (List.dropWhile isPySpace s).reverse)
  have h4 := congrArg List.reverse h2
  rw [List.reverse_append, List.reverse_reverse] at h4
  have h5 : pyStrip s
      ++ (List.takeWhile isPySpace (List.dropWhile isPySpace s).reverse).reverse
      = List.dropWhile isPySpace s := h4
  have h1 := List.takeWhile_append_dropWhile (p := isPySpace) (l := s)
  rw [List.append_assoc, h5, h1]

theorem pySplit1_ne_nil (c : Char) (t : List Char) : pySplit1 c t ≠ [] := by
  cases t with
  | nil => simp [pySplit1]
  | cons x rest =>
    unfold pySplit1
    rcases h : pySplit1 c rest with _ | ⟨hh, tt⟩
    · simp
    · by_cases hc : x = c <;> simp [hc]

theorem pySplit1_join (c : Char) (t : List Char) :
    pyJoin [c] (pySplit1 c t) = t := by
  induction t with
  | nil => rfl
  | cons x rest ih =>
    unfold pySplit1
    rcases h : pySplit1 c rest with _ | ⟨hh, tt⟩
    · exact absurd h (pySplit1_ne_nil c rest)
    · rw [h] at ih
      show pyJoin [c] (if x = c then [] :: hh :: tt else (x :: hh) :: tt)
        = x :: rest
      by_cases hc : x = c
      · rw [if_pos hc]
        have : pyJoin [c] ([] :: hh :: tt) = [c] ++ pyJoin [c] (hh :: tt) := by
          simp [pyJoin]
        rw [this, ih, hc]
        rfl
      · rw [if_neg hc]
        rcases tt with _ | ⟨t1, ts⟩
        · have : pyJoin [c] [hh] = hh := rfl
          rw [this] at ih
          show x :: hh = x :: rest
          rw [ih]
        · have hl : pyJoin [c] ((x :: hh) :: t1 :: ts)
              = (x :: hh) ++ [c] ++ pyJoin [c] (t1 :: ts) := rfl
          have hr : pyJoin [c] (hh :: t1 :: ts)
              = hh ++ [c] ++ pyJoin [c] (t1 :: ts) := rfl
          rw [hl]
          rw [hr] at ih
          rw [← ih]
          simp

theorem pyJoin_concat (sep : List Char) (init : List (List Char))
    (last : List Char) (h : init ≠ []) :
    pyJoin sep (init ++ [last]) = pyJoin sep init ++ sep ++ last := by
  induction init with
  | nil => exact absurd rfl h
  | cons p rest ih =>
    rcases rest with _ | ⟨q, qs⟩
    · simp [pyJoin]
    · have h2 := ih (by simp)
      show p ++ sep ++ pyJoin sep ((q :: qs) ++ [last])
        = (p ++ sep ++ pyJoin sep (q :: qs)) ++ sep ++ last
      rw [h2]
      simp [List.append_assoc]

theorem cleanTruncation_within (t : List Char) : cleanTruncation t <:+: t := by
  unfold cleanTruncation
  dsimp only
  split
  next hcond =>
    have hb := (Bool.and_eq_true _ _).mp hcond
    have hlen : 1 < (pySplit1 '.' t).length := by
      have := (Bool.and_eq_true _ _).mp hb.1
      simpa using this.1
    have hne : pySplit1 '.' t ≠ [] := pySplit1_ne_nil '.' t
    have hinit : (pySplit1 '.' t).dropLast ≠ [] := by
      intro hnil
      have hd := List.length_dropLast (pySplit1 '.' t)
      rw [hnil] at hd
      simp at hd
      omega
    have hdec : (pySplit1 '.' t).dropLast ++ [(pySplit1 '.' t).getLast hne]
        = pySplit1 '.' t := List.dropLast_append_getLast hne
    have hpre : (pyJoin ['.'] (pySplit1 '.' t).dropLast ++ ['.'])
        ++ (pySplit1 '.' t).getLast hne = t := by
      have hj : pyJoin ['.'] ((pySplit1 '.' t).dropLast
            ++ [(pySplit1 '.' t).getLast hne])
          = pyJoin ['.'] (pySplit1 '.' t).dropLast ++ ['.']
            ++ (pySplit1 '.' t).getLast hne :=
        pyJoin_concat ['.'] _ _ hinit
      rw [hdec, pySplit1_join] at hj
      rw [← hj]
    refine List.IsInfix.trans (pyStrip_within _) ?_
    exact ⟨[], (pySplit1 '.' t).getLast hne, by simpa using hpre⟩
  next =>
    exact pyStrip_within t

theorem pySliceTo_length_le (l : List α) (i : Int) (h : 0 ≤ i) :
    ((pySliceTo l i).length : Int) ≤ i := by
  unfold pySliceTo pySliceIdx
  have h0 : ¬(i < 0) := by omega
  simp only [h0, if_false, List.length_take]
  split
  next h2 =>
    rw [Nat.min_self]
    omega
  next h2 =>
    have hm : min i.toNat l.length ≤ i.toNat := Nat.min_le_left _ _
    omega

/-- C2 (amended): for the "front" strategy with a nonnegative usable budget
and a tokenizer for which re-encoding decoded tokens does not increase the
count and the count is monotone under substrings, the truncated result
satisfies `count_tokens(result) <= max_token_num - reserved_tokens`.  (The
"balanced" and "sections" strategies violate the bound; see the
counterexample.) -/
theorem C2_front_bound (m : TokenManager) (text : List Char) (r : Int)
    (hbudget : 0 ≤ m.maxTokenNum - r)
    (hover : (countTokens m text : Int) > m.maxTokenNum - r)
    (henc1 : ∀ ts, (m.enc.encode (m.enc.decode ts)).length ≤ ts.length)
    (henc2 : ∀ s t, s <:+: t →
      (m.enc.encode s).length ≤ (m.enc.encode t).length) :
    (countTokens m (okD (smartTruncate m text r "front")) : Int)
      ≤ m.maxTokenNum - r := by
  have hc1 : ¬((countTokens m text : Int) ≤ m.maxTokenNum - r) := by omega
  have hok : okD (smartTruncate m text r "front")
      = truncateFront m text (m.maxTokenNum - r) := by
    simp [smartTruncate, hc1, okD]
  rw [hok]
  unfold truncateFront
  have htok : ((m.enc.encode text).length : Int) > m.maxTokenNum - r := hover
  rw [if_pos htok]
  set u := m.enc.decode (pySliceTo (m.enc.encode text) (m.maxTokenNum - r))
    with hu
  have hle1 : countTokens m (cleanTruncation u) ≤ countTokens m u :=
    henc2 _ _ (cleanTruncation_within u)
  have hle2 : countTokens m u
      ≤ (pySliceTo (m.enc.encode text) (m.maxTokenNum - r)).length :=
    henc1 _
  have hle3 := pySliceTo_length_le (m.enc.encode text) (m.maxTokenNum - r) hbudget
  omega

/-- Witness for C2 (amended) with the character tokenizer at budget 6. -/
theorem C2_witness :
    (countTokens mChar
      (okD (smartTruncate mChar (List.replicate 20 'a') 4090 "front")) : Int)
      ≤ mChar.maxTokenNum - 4090 :=
  C2_front_bound mChar (List.replicate 20 'a') 4090 (by decide) (by decide)
    (fun ts => by simp [mChar, charEnc, countTokens])
    (fun s t hst => by
      simpa [mChar, charEnc, countTokens] using hst.length_le)

/-! ## C3: Abstract survival under the sections strategy -/

/-- Counterexample for C3: with usable budget 50, the Abstract segment
"Abstract: ok." (13 tokens) fits, but the Title segment has 67 tokens, so
the priority loop breaks at Title before reaching the Abstract; the output
is empty and does not contain the Abstract. -/
theorem C3_counterexample :
    dictGet (segmentSections c3text) "Abstract".data = some "Abstract: ok.".data
      ∧ ((countTokens mChar "Abstract: ok.".data : Int) ≤ mChar.maxTokenNum - 4046)
      ∧ ((countTokens mChar c3text : Int) > mChar.maxTokenNum - 4046)
      ∧ okD (smartTruncate mChar c3text 4046 "sections") = []
      ∧ ¬("Abstract: ok.".data <:+: okD (smartTruncate mChar c3text 4046 "sections")) := by
  refine ⟨by decide, by decide, by decide, by decide, ?_⟩
  intro hin
  have h1 : okD (smartTruncate mChar c3text 4046 "sections") = [] := by decide
  rw [h1] at hin
  have h2 := hin.length_le
  simp at h2

theorem dictGet_dictSet_cases (d : List (List Char × α)) (k k' : List Char)
    (v u : α) (h : dictGet (dictSet d k v) k' = some u) :
    u = v ∨ dictGet d k' = some u := by
  by_cases he : k' = k
  · subst he
    rw [dictGet_dictSet_self] at h
    exact Or.inl (Option.some_inj.mp h).symm
  · rw [dictGet_dictSet_ne _ _ _ _ he] at h
    exact Or.inr h

theorem segGo_values_stripped :
    ∀ (lines : List (List Char)) (secs : List (List Char × List Char))
      (curSec curCont : List Char),
      (∀ k v, dictGet secs k = some v → ∃ w, v = pyStrip w) →
      ∀ k v, dictGet (segGo lines secs curSec curCont) k = some v →
        ∃ w, v = pyStrip w := by
  intro lines
  induction lines with
  | nil =>
    intro secs curSec curCont hsecs k v hget
    unfold segGo at hget
    split at hget
    · exact hsecs k v hget
    · rcases dictGet_dictSet_cases _ _ _ _ _ hget with he | hd
      · exact ⟨curCont, he⟩
      · exact hsecs k v hd
  | cons line rest ih =>
    intro secs curSec curCont hsecs k v hget
    unfold segGo at hget
    split at hget
    · refine ih _ _ _ ?_ k v hget
      intro k' v' hg'
      split at hg'
      · exact hsecs k' v' hg'
      · rcases dictGet_dictSet_cases _ _ _ _ _ hg' with he | hd
        · exact ⟨curCont, he⟩
        · exact hsecs k' v' hd
    · exact ih _ _ _ hsecs k v hget

theorem segmentSections_values_stripped (text : List Char) (k v : List Char)
    (h : dictGet (segmentSections text) k = some v) : ∃ w, v = pyStrip w :=
  segGo_values_stripped _ _ _ _ (fun _ _ hg => by simp [dictGet] at hg) k v h

theorem prioLoop_extends (m : TokenManager)
    (segs : List (List Char × List Char)) (maxT : Int) :
    ∀ (names : List (List Char)) (used : Int) (res : List Char),
      ∃ suf, (prioLoop m segs maxT names used res).1 = res ++ suf := by
  intro names
  induction names with
  | nil => intro used res; exact ⟨[], by simp [prioLoop]⟩
  | cons nm rest ih =>
    intro used res
    unfold prioLoop
    rcases hdg : dictGet segs (pyRStripColon nm) with _ | content
    · exact ih used res
    · dsimp only
      by_cases hif : used + (countTokens m content : Int) ≤ maxT
      · rw [if_pos hif]
        obtain ⟨suf, hsuf⟩ := ih (used + (countTokens m content : Int))
          (res ++ content ++ "\n\n".data)
        refine ⟨content ++ "\n\n".data ++ suf, ?_⟩
        rw [hsuf]
        simp [List.append_assoc]
      · rw [if_neg hif]
        by_cases hrem : maxT - used > 100
        · rw [if_pos hrem]
          refine ⟨truncateFront m content (maxT - used) ++ truncMarker, ?_⟩
          simp [List.append_assoc]
        · rw [if_neg hrem]
          exact ⟨[], by simp⟩

theorem otherLoop_extends (m : TokenManager) (maxT : Int) :
    ∀ (items : List (List Char × List Char)) (used : Int) (res : List Char),
      ∃ suf, otherLoop m maxT items used res = res ++ suf := by
  intro items
  induction items with
  | nil => intro used res; exact ⟨[], by simp [otherLoop]⟩
  | cons p rest ih =>
    intro used res
    obtain ⟨key, content⟩ := p
    unfold otherLoop
    dsimp only
    by_cases hmem : (key ++ ":".data) ∈ prioritySections
    · rw [if_pos hmem]
      exact ih used res
    · rw [if_neg hmem]
      by_cases hif : used + (countTokens m content : Int) ≤ maxT
      · rw [if_pos hif]
        obtain ⟨suf, hsuf⟩ := ih (used + (countTokens m content : Int))
          (res ++ content ++ "\n\n".data)
        refine ⟨content ++ "\n\n".data ++ suf, ?_⟩
        rw [hsuf]
        simp [List.append_assoc]
      · rw [if_neg hif]
        exact ⟨[], by simp⟩

theorem pySplit1_cons (c x : Char) (rest hh : List Char)
    (tt : List (List Char)) (h : pySplit1 c rest = hh :: tt) :
    pySplit1 c (x :: rest)
      = if x = c then [] :: hh :: tt else (x :: hh) :: tt := by
  unfold pySplit1
  rw [h]

theorem dropWhile_head_false {p : Char → Bool} {l : List Char} {a : Char}
    {r : List Char} (h : List.dropWhile p l = a :: r) : p a = false := by
  induction l with
  | nil => simp [List.dropWhile] at h
  | cons c cs ih =>
    rw [List.dropWhile_cons] at h
    split at h
    · exact ih h
    next hc =>
      injection h with h1 h2
      subst h1
      simpa using hc

theorem pyStrip_head_not_space (s : List Char) (a : Char) (A' : List Char)
    (h : pyStrip s = a :: A') : isPySpace a = false := by
  have h2 := List.takeWhile_append_dropWhile (p := isPySpace)
    (l := (List.dropWhile isPySpace s).reverse)
  have h4 := congrArg List.reverse h2
  rw [List.reverse_append, List.reverse_reverse] at h4
  have h5 : pyStrip s ++ (List.takeWhile isPySpace
      (List.dropWhile isPySpace s).reverse).reverse
      = List.dropWhile isPySpace s := h4
  rw [h] at h5
  exact dropWhile_head_false h5.symm

theorem pySplit1_last_no_sep (c : Char) :
    ∀ (t : List Char) (L : List Char),
      (pySplit1 c t).getLast? = some L → c ∉ L := by
  intro t
  induction t with
  | nil =>
    intro L hL
    simp [pySplit1] at hL
    subst hL
    simp
  | cons x rest ih =>
    intro L hL
    rcases h : pySplit1 c rest with _ | ⟨hh, tt⟩
    · exact absurd h (pySplit1_ne_nil c rest)
    · rw [pySplit1_cons c x rest hh tt h] at hL
      by_cases hc : x = c
      · rw [if_pos hc, List.getLast?_cons_cons] at hL
        exact ih L (h ▸ hL)
      · rw [if_neg hc] at hL
        rcases tt with _ | ⟨t1, ts⟩
        · simp at hL
          subst hL
          have hih : c ∉ hh := ih hh (by rw [h]; rfl)
          simp only [List.mem_cons]
          rintro (he | hm)
          · exact hc he.symm
          · exact hih hm
        · rw [List.getLast?_cons_cons] at hL
          refine ih L ?_
          rw [h, List.getLast?_cons_cons]
          exact hL

theorem dropWhile_keep_mid (p : Char → Bool) (a : Char) (A1 Y : List Char)
    (ha : p a = false) :
    ∀ X : List Char, ∃ X',
      List.dropWhile p (X ++ a :: A1 ++ Y) = X' ++ a :: A1 ++ Y := by
  intro X
  induction X with
  | nil =>
    refine ⟨[], ?_⟩
    simp [List.dropWhile_cons, ha]
  | cons c cs ih =>
    have hstep : (c :: cs) ++ a :: A1 ++ Y = c :: (cs ++ a :: A1 ++ Y) := by
      simp
    rw [hstep, List.dropWhile_cons]
    split
    · exact ih
    · exact ⟨c :: cs, by simp⟩

theorem pyStrip_keeps_within (A w : List Char) (hin : A <:+: w)
    (a : Char) (A1 : List Char) (hA : A = a :: A1) (ha : isPySpace a = false)
    (z : Char) (hz : A.getLast? = some z) (hzs : isPySpace z = false) :
    A <:+: pyStrip w := by
  obtain ⟨P, S, hPS⟩ := hin
  obtain ⟨P', h1⟩ := dropWhile_keep_mid isPySpace a A1 S ha P
  rw [show P ++ a :: A1 ++ S = P ++ A ++ S by rw [hA]] at h1
  rw [hPS] at h1
  obtain ⟨tl, hTl⟩ : ∃ tl, A.reverse = z :: tl := by
    rcases hAr : A.reverse with _ | ⟨b, bs⟩
    · rw [hA] at hAr
      simp at hAr
    · have hh : A.reverse.head? = some b := by rw [hAr]; rfl
      rw [List.head?_reverse, hz] at hh
      have hzb : z = b := Option.some_inj.mp hh
      exact ⟨bs, by rw [hzb]⟩
  have hrev : (List.dropWhile isPySpace w).reverse
      = S.reverse ++ z :: tl ++ P'.reverse := by
    rw [h1, ← hTl]
    simp [hA, List.reverse_append, List.append_assoc]
  obtain ⟨S', h2⟩ := dropWhile_keep_mid isPySpace z tl P'.reverse hzs S.reverse
  rw [← hrev] at h2
  have h3 : pyStrip w = (S' ++ z :: tl ++ P'.reverse).reverse := by
    rw [pyStrip, h2]
  rw [List.reverse_append, List.reverse_append, List.reverse_reverse] at h3
  have h4 : (z :: tl).reverse = A := by rw [← hTl, List.reverse_reverse]
  rw [h4] at h3
  exact ⟨P', S'.reverse, by rw [h3, List.append_assoc]⟩

theorem pre_of_eq_append (l1 a l2 b : List Char) (h : l1 ++ a = l2 ++ b)
    (hle : l1.length ≤ l2.length) : ∃ w, l1 ++ w = l2 := by
  have ht := congrArg (List.take l1.length) h
  rw [List.take_left] at ht
  rw [List.take_append_eq_append_take, Nat.sub_eq_zero_of_le hle,
    List.take_zero, List.append_nil] at ht
  refine ⟨l2.drop l1.length, ?_⟩
  nth_rewrite 1 [ht]
  exact List.take_append_drop _ _

theorem infix_kept_of_dot (X A Y K T : List Char)
    (hu : X ++ A ++ Y = K ++ T) (hdotT : ('.' : Char) ∉ T)
    (hz : A.getLast? = some '.') : A <:+: K := by
  have hAne : A ≠ [] := by
    intro hnil
    rw [hnil] at hz
    simp at hz
  obtain ⟨A0, hA0⟩ : ∃ A0, A = A0 ++ ['.'] := by
    refine ⟨A.dropLast, ?_⟩
    have hd := List.dropLast_append_getLast hAne
    have hgl : A.getLast hAne = '.' := by
      have := List.getLast?_eq_getLast A hAne
      rw [hz] at this
      exact (Option.some_inj.mp this).symm
    rw [← hgl]
    exact hd.symm
  by_cases hle : (X ++ A).length ≤ K.length
  · obtain ⟨w, hw⟩ := pre_of_eq_append (X ++ A) Y K T
      (by rw [← hu, List.append_assoc]) hle
    exact ⟨X, w, by rw [← hw, List.append_assoc]⟩
  · exfalso
    have hpos : K.length ≤ (X ++ A0).length := by
      rw [hA0] at hle
      simp at hle ⊢
      omega
    have hd1 : (X ++ A ++ Y).drop (X ++ A0).length = '.' :: Y := by
      rw [show X ++ A ++ Y = (X ++ A0) ++ ('.' :: Y) by
        rw [hA0]; simp [List.append_assoc]]
      exact List.drop_left _ _
    have hd2 : (K ++ T).drop (X ++ A0).length
        = T.drop ((X ++ A0).length - K.length) := by
      rw [List.drop_append_eq_append_drop, List.drop_eq_nil_of_le hpos,
        List.nil_append]
    have heq : ('.' :: Y) = T.drop ((X ++ A0).length - K.length) := by
      rw [← hd1, hu, hd2]
    have hmem : ('.' : Char) ∈ T := by
      refine List.mem_of_mem_drop (n := (X ++ A0).length - K.length) ?_
      rw [← heq]
      simp
    exact hdotT hmem

theorem pySplit1_kept_decomp (t : List Char)
    (hlen : 1 < (pySplit1 '.' t).length) :
    (pyJoin ['.'] (pySplit1 '.' t).dropLast ++ ['.'])
      ++ (pySplit1 '.' t).getLast (pySplit1_ne_nil '.' t) = t := by
  have hne := pySplit1_ne_nil '.' t
  have hinit : (pySplit1 '.' t).dropLast ≠ [] := by
    intro hnil
    have hd := List.length_dropLast (pySplit1 '.' t)
    rw [hnil] at hd
    simp at hd
    omega
  have hdec : (pySplit1 '.' t).dropLast ++ [(pySplit1 '.' t).getLast hne]
      = pySplit1 '.' t := List.dropLast_append_getLast hne
  have hj : pyJoin ['.'] ((pySplit1 '.' t).dropLast
        ++ [(pySplit1 '.' t).getLast hne])
      = pyJoin ['.'] (pySplit1 '.' t).dropLast ++ ['.']
        ++ (pySplit1 '.' t).getLast hne :=
    pyJoin_concat ['.'] _ _ hinit
  rw [hdec, pySplit1_join] at hj
  rw [← hj]

theorem clean_keeps_dotted (X A Y : List Char)
    (a : Char) (A1 : List Char) (hA : A = a :: A1) (ha : isPySpace a = false)
    (hz : A.getLast? = some '.') :
    A <:+: cleanTruncation (X ++ A ++ Y) := by
  have hinU : A <:+: X ++ A ++ Y := ⟨X, Y, rfl⟩
  have hdotns : isPySpace '.' = false := by decide
  unfold cleanTruncation
  dsimp only
  split
  next hcond =>
    have hlen : 1 < (pySplit1 '.' (X ++ A ++ Y)).length := by
      have hb := (Bool.and_eq_true _ _).mp hcond
      have := (Bool.and_eq_true _ _).mp hb.1
      simpa using this.1
    have hpre := pySplit1_kept_decomp (X ++ A ++ Y) hlen
    have hnodot : ('.' : Char)
        ∉ (pySplit1 '.' (X ++ A ++ Y)).getLast (pySplit1_ne_nil '.' _) :=
      pySplit1_last_no_sep '.' (X ++ A ++ Y) _
        (List.getLast?_eq_getLast _ (pySplit1_ne_nil '.' _))
    have hinK : A <:+: pyJoin ['.'] (pySplit1 '.' (X ++ A ++ Y)).dropLast
        ++ ['.'] :=
      infix_kept_of_dot X A Y _ _ hpre.symm hnodot hz
    exact pyStrip_keeps_within A _ hinK a A1 hA ha '.' hz hdotns
  next =>
    exact pyStrip_keeps_within A _ hinU a A1 hA ha '.' hz hdotns

theorem prioLoop_cons_none (m : TokenManager)
    (segs : List (List Char × List Char)) (maxT : Int) (nm : List Char)
    (rest : List (List Char)) (used : Int) (res : List Char)
    (h : dictGet segs (pyRStripColon nm) = none) :
    prioLoop m segs maxT (nm :: rest) used res
      = prioLoop m segs maxT rest used res := by
  conv_lhs => unfold prioLoop
  rw [h]

theorem prioLoop_cons_some_fit (m : TokenManager)
    (segs : List (List Char × List Char)) (maxT : Int) (nm : List Char)
    (rest : List (List Char)) (used : Int) (res : List Char)
    (content : List Char) (h : dictGet segs (pyRStripColon nm) = some content)
    (hfit : used + (countTokens m content : Int) ≤ maxT) :
    prioLoop m segs maxT (nm :: rest) used res
      = prioLoop m segs maxT rest (used + (countTokens m content : Int))
        (res ++ content ++ "\n\n".data) := by
  conv_lhs => unfold prioLoop
  rw [h]
  dsimp only
  rw [if_pos hfit]

theorem segTok_nonneg (m : TokenManager)
    (segs : List (List Char × List Char)) (k : List Char) :
    0 ≤ segTok m segs k := by
  unfold segTok
  split
  · exact Int.natCast_nonneg _
  · exact le_refl 0

theorem segTok_eq_of_get (m : TokenManager)
    (segs : List (List Char × List Char)) (k c : List Char)
    (h : dictGet segs k = some c) :
    segTok m segs k = (countTokens m c : Int) := by
  unfold segTok
  rw [h]

theorem segTok_eq_zero (m : TokenManager)
    (segs : List (List Char × List Char)) (k : List Char)
    (h : dictGet segs k = none) : segTok m segs k = 0 := by
  unfold segTok
  rw [h]

/-- C3 (amended): under the "sections" strategy on an over-budget input,
the output contains the full, untruncated Abstract segment whenever the
Title and Paper_info segments (those present) together with the Abstract
segment fit within the usable budget and the Abstract segment ends with a
period.  (When a higher-priority segment overflows, the loop breaks before
reaching the Abstract; see the counterexample.) -/
theorem C3_abstract_preserved (m : TokenManager) (text : List Char) (r : Int)
    (A : List Char)
    (hseg : dictGet (segmentSections text) "Abstract".data = some A)
    (hdot : A.getLast? = some '.')
    (hover : (countTokens m text : Int) > m.maxTokenNum - r)
    (hfit : segTok m (segmentSections text) "Title".data
        + segTok m (segmentSections text) "Paper_info".data
        + (countTokens m A : Int) ≤ m.maxTokenNum - r) :
    A <:+: okD (smartTruncate m text r "sections") := by
  have hc1 : ¬((countTokens m text : Int) ≤ m.maxTokenNum - r) := by omega
  have hok : okD (smartTruncate m text r "sections")
      = truncateSectionsPriority m text (m.maxTokenNum - r) := by
    simp [smartTruncate, hc1, okD]
  rw [hok]
  have hAne : A ≠ [] := by
    intro h0
    rw [h0] at hdot
    simp at hdot
  obtain ⟨a, A1, hA⟩ : ∃ a A1, A = a :: A1 := by
    rcases A with _ | ⟨a, A1⟩
    · exact absurd rfl hAne
    · exact ⟨a, A1, rfl⟩
  have ha : isPySpace a = false := by
    obtain ⟨w, hw⟩ := segmentSections_values_stripped text _ A hseg
    exact pyStrip_head_not_space w a A1 (by rw [← hw, hA])
  have hr1 : pyRStripColon "Title:".data = "Title".data := by decide
  have hr2 : pyRStripColon "Paper_info:".data = "Paper_info".data := by decide
  have hr3 : pyRStripColon "Abstract:".data = "Abstract".data := by decide
  have hT0 := segTok_nonneg m (segmentSections text) "Title".data
  have hP0 := segTok_nonneg m (segmentSections text) "Paper_info".data
  have hA0 : (0 : Int) ≤ (countTokens m A : Int) := Int.natCast_nonneg _
  have hlist : prioritySections
      = "Title:".data :: "Paper_info:".data :: "Abstract:".data
        :: prioritySections.drop 3 := rfl
  have hstep12 : ∃ used1 res1,
      prioLoop m (segmentSections text) (m.maxTokenNum - r)
          prioritySections 0 []
        = prioLoop m (segmentSections text) (m.maxTokenNum - r)
          ("Abstract:".data :: prioritySections.drop 3) used1 res1
      ∧ used1 + (countTokens m A : Int) ≤ m.maxTokenNum - r := by
    rw [hlist]
    rcases hT : dictGet (segmentSections text) "Title".data with _ | tc
    · rw [prioLoop_cons_none _ _ _ _ _ _ _ (by rw [hr1]; exact hT)]
      rcases hP : dictGet (segmentSections text) "Paper_info".data with _ | pc
      · rw [prioLoop_cons_none _ _ _ _ _ _ _ (by rw [hr2]; exact hP)]
        refine ⟨0, [], rfl, ?_⟩
        rw [segTok_eq_zero m _ _ hT, segTok_eq_zero m _ _ hP] at hfit
        omega
      · rw [prioLoop_cons_some_fit _ _ _ _ _ _ _ pc (by rw [hr2]; exact hP)
          (by rw [segTok_eq_zero m _ _ hT,
            segTok_eq_of_get m _ _ _ hP] at hfit; omega)]
        refine ⟨_, _, rfl, ?_⟩
        rw [segTok_eq_zero m _ _ hT, segTok_eq_of_get m _ _ _ hP] at hfit
        omega
    · rw [prioLoop_cons_some_fit _ _ _ _ _ _ _ tc (by rw [hr1]; exact hT)
        (by rw [segTok_eq_of_get m _ _ _ hT] at hfit; omega)]
      rcases hP : dictGet (segmentSections text) "Paper_info".data with _ | pc
      · rw [prioLoop_cons_none _ _ _ _ _ _ _ (by rw [hr2]; exact hP)]
        refine ⟨_, _, rfl, ?_⟩
        rw [segTok_eq_of_get m _ _ _ hT, segTok_eq_zero m _ _ hP] at hfit
        omega
      · rw [prioLoop_cons_some_fit _ _ _ _ _ _ _ pc (by rw [hr2]; exact hP)
          (by rw [segTok_eq_of_get m _ _ _ hT,
            segTok_eq_of_get m _ _ _ hP] at hfit; omega)]
        refine ⟨_, _, rfl, ?_⟩
        rw [segTok_eq_of_get m _ _ _ hT, segTok_eq_of_get m _ _ _ hP] at hfit
        omega
  obtain ⟨used1, res1, hres1, hfit1⟩ := hstep12
  have hstep3 := prioLoop_cons_some_fit m (segmentSections text)
    (m.maxTokenNum - r) "Abstract:".data (prioritySections.drop 3) used1 res1
    A (by rw [hr3]; exact hseg) hfit1
  obtain ⟨suf1, hsuf1⟩ := prioLoop_extends m (segmentSections text)
    (m.maxTokenNum - r) (prioritySections.drop 3)
    (used1 + (countTokens m A : Int)) (res1 ++ A ++ "\n\n".data)
  obtain ⟨suf2, hsuf2⟩ := otherLoop_extends m (m.maxTokenNum - r)
    (segmentSections text)
    (prioLoop m (segmentSections text) (m.maxTokenNum - r)
      prioritySections 0 []).2
    (prioLoop m (segmentSections text) (m.maxTokenNum - r)
      prioritySections 0 []).1
  have hfinal : otherLoop m (m.maxTokenNum - r) (segmentSections text)
      (prioLoop m (segmentSections text) (m.maxTokenNum - r)
        prioritySections 0 []).2
      (prioLoop m (segmentSections text) (m.maxTokenNum - r)
        prioritySections 0 []).1
      = res1 ++ A ++ ("\n\n".data ++ suf1 ++ suf2) := by
    rw [hsuf2, hres1, hstep3, hsuf1]
    simp [List.append_assoc]
  unfold truncateSectionsPriority
  dsimp only
  rw [hfinal]
  exact clean_keeps_dotted res1 A ("\n\n".data ++ suf1 ++ suf2) a A1 hA ha hdot

/-- Witness for C3 (amended): Title (8 tokens) and Abstract (15 tokens) fit
the budget 30; the Abstract survives the truncation of the long References
segment. -/
theorem C3_witness :
    "Abstract: good.".data
      <:+: okD (smartTruncate mChar c3wtext 4066 "sections") :=
  C3_abstract_preserved mChar c3wtext 4066 "Abstract: good.".data
    (by decide) (by decide) (by decide) (by decide)

/-! ## C7: construction is total; the title is empty iff nothing qualifies -/

theorem length_insSorted (x : Rat) (l : List Rat) :
    (insSorted x l).length = l.length + 1 := by
  induction l with
  | nil => rfl
  | cons y ys ih =>
    unfold insSorted
    split
    · simp
    · simp [ih]

theorem length_pySort (l : List Rat) : (pySort l).length = l.length := by
  induction l with
  | nil => rfl
  | cons x xs ih =>
    show (insSorted x (pySort xs)).length = xs.length + 1
    rw [length_insSorted, ih]

theorem pyIdx_neg_some (l : List α) (k : Nat) (hk : 1 ≤ k)
    (h : k ≤ l.length) : ∃ v, pyIdx l (-(k : Int)) = some v := by
  unfold pyIdx
  have h1 : (-(k : Int) < 0) := by omega
  simp only [h1, if_true]
  have h2 : 0 ≤ -(k : Int) + l.length ∧ (-(k : Int) + l.length).toNat < l.length := by
    omega
  rw [dif_pos h2]
  exact ⟨_, rfl⟩

theorem titleCond_some (msf : List Rat) (fs : Rat) (h : 2 ≤ msf.length) :
    ∃ b, titleCond msf fs = some b := by
  unfold titleCond
  obtain ⟨v1, hv1⟩ := pyIdx_neg_some msf 1 (by omega) (by omega)
  norm_num at hv1
  rw [hv1]
  dsimp only
  split
  · exact ⟨true, rfl⟩
  · obtain ⟨v2, hv2⟩ := pyIdx_neg_some msf 2 (by omega) (by omega)
    norm_num at hv2
    rw [hv2]
    exact ⟨_, rfl⟩

theorem titleGo_spec (msf : List Rat) (n : Nat) (hmsf : 2 ≤ msf.length) :
    ∀ (cands : List (Nat × List Char × Rat)) (cur : List Char) (tp : Nat),
      (∀ c ∈ cands, c.1 < n) → tp < n →
      ∃ t' tp', titleGo msf cands cur tp = some (t', tp') ∧ tp' < n
        ∧ (t' = [] ↔ (cur = []
            ∧ ∀ c ∈ cands, fragQualifies msf c = false)) := by
  intro cands
  induction cands with
  | nil =>
    intro cur tp hlt htp
    exact ⟨cur, tp, rfl, htp, by simp⟩
  | cons c rest ih =>
    intro cur tp hlt htp
    obtain ⟨i, txt, fs⟩ := c
    obtain ⟨b, hb⟩ := titleCond_some msf fs hmsf
    have hi : i < n := hlt _ (List.mem_cons_self _ _)
    have hrest : ∀ c ∈ rest, c.1 < n :=
      fun c hc => hlt c (List.mem_cons_of_mem _ hc)
    have hfragc : fragQualifies msf (i, txt, fs)
        = (b && (decide (txt.length > 4) && !isSubstrB "arXiv".data txt)) := by
      unfold fragQualifies
      rw [hb]
      rfl
    unfold titleGo
    rw [hb]
    dsimp only
    by_cases hbv : b = true
    · rw [if_pos hbv]
      by_cases hq : (decide (txt.length > 4)
          && !isSubstrB "arXiv".data txt) = true
      · rw [if_pos hq]
        have htxt : txt ≠ [] := by
          have h4 := ((Bool.and_eq_true _ _).mp hq).1
          have : 4 < txt.length := by simpa using h4
          intro h0
          rw [h0] at this
          simp at this
        have hcur' : (if cur.isEmpty then txt
            else cur ++ [' '] ++ txt) ≠ [] := by
          split
          · exact htxt
          · simp
        obtain ⟨t', tp', heq, htp', hiff⟩ := ih
          (if cur.isEmpty then txt else cur ++ [' '] ++ txt) i hrest hi
        refine ⟨t', tp', heq, htp', ?_⟩
        constructor
        · intro h0
          exact absurd (hiff.mp h0).1 hcur'
        · rintro ⟨-, hall⟩
          have := hall _ (List.mem_cons_self _ _)
          rw [hfragc, hbv, hq] at this
          simp at this
      · rw [if_neg hq]
        obtain ⟨t', tp', heq, htp', hiff⟩ := ih cur i hrest hi
        refine ⟨t', tp', heq, htp', ?_⟩
        rw [hiff]
        constructor
        · rintro ⟨h1, h2⟩
          refine ⟨h1, ?_⟩
          intro c hc
          rcases List.mem_cons.mp hc with he | hm
          · rw [he, hfragc]
            cases hqq : (decide (txt.length > 4)
                && !isSubstrB "arXiv".data txt)
            · simp
            · exact absurd hqq hq
          · exact h2 c hm
        · rintro ⟨h1, h2⟩
          exact ⟨h1, fun c hc => h2 c (List.mem_cons_of_mem _ hc)⟩
    · rw [if_neg hbv]
      obtain ⟨t', tp', heq, htp', hiff⟩ := ih cur tp hrest htp
      refine ⟨t', tp', heq, htp', ?_⟩
      rw [hiff]
      constructor
      · rintro ⟨h1, h2⟩
        refine ⟨h1, ?_⟩
        intro c hc
        rcases List.mem_cons.mp hc with he | hm
        · rw [he, hfragc]
          cases hbb : b
          · simp
          · exact absurd hbb hbv
        · exact h2 c hm
      · rintro ⟨h1, h2⟩
        exact ⟨h1, fun c hc => h2 c (List.mem_cons_of_mem _ hc)⟩

theorem pyReplace_nl_empty_iff (s : List Char) :
    pyReplace s "\n".data " ".data = [] ↔ s = [] := by
  cases s with
  | nil => simp [pyReplace, pyReplaceGo]
  | cons c rest =>
    constructor
    · intro h
      have : pyReplace (c :: rest) "\n".data " ".data
          = pyReplaceGo "\n".data " ".data (rest.length + 1) (c :: rest) := rfl
      rw [this] at h
      unfold pyReplaceGo at h
      split at h <;> simp at h
    · intro h
      simp at h

theorem pyIdx_natCast (l : List α) (n : Nat) : pyIdx l (n : Int) = l[n]? := by
  unfold pyIdx
  dsimp only
  have h0 : ¬((n : Int) < 0) := by omega
  simp only [h0, if_false]
  by_cases h : n < l.length
  · rw [dif_pos ⟨by omega, by simpa using h⟩, List.getElem?_eq_getElem h]
    simp [List.get_eq_getElem]
  · rw [dif_neg, List.getElem?_eq_none (by omega)]
    intro hcon
    exact h (by simpa using hcon.2)

theorem titleCandidates_lt (pages : List Page) :
    ∀ c ∈ titleCandidates pages, c.1 < pages.length := by
  intro c hc
  unfold titleCandidates at hc
  rw [List.mem_flatMap] at hc
  obtain ⟨pi, hpi, hc2⟩ := hc
  rw [List.mem_filterMap] at hc2
  obtain ⟨b, hb, hbc⟩ := hc2
  have hidx : c.1 = pi.1 := by
    rcases hl : b.lines with _ | ⟨l0, ls⟩ <;> simp only [hl] at hbc
    · simp at hbc
    · rcases hs : l0.spans with _ | ⟨s0, ss⟩ <;> simp only [hs] at hbc
      · simp at hbc
      · split at hbc
        · rw [← Option.some_inj.mp hbc]
        · simp at hbc
  rw [hidx]
  obtain ⟨i, p⟩ := pi
  have hget : pages[i]? = some p := List.mk_mem_enum_iff_getElem?.mp hpi
  by_contra hge
  push_neg at hge
  rw [List.getElem?_eq_none hge] at hget
  exact Option.noConfusion hget

theorem getTitle_spec (pages : List Page) (hne : pages ≠ []) :
    ∃ t tp, getTitle pages = some (t, tp) ∧ tp < pages.length
      ∧ (t = [] ↔ noTitleFragment pages = true) := by
  have hpos : 0 < pages.length := by
    cases pages
    · exact absurd rfl hne
    · simp
  rcases hcs : titleCandidates pages with _ | ⟨c0, cs⟩
  · refine ⟨[], 0, ?_, hpos, ?_⟩
    · unfold getTitle
      rw [hcs]
      rfl
    · unfold noTitleFragment
      rw [hcs]
      simp
  · have hlen2 : 2 ≤ (titleMsf pages).length := by
      unfold titleMsf
      rw [length_pySort]
      simp [hcs]
    obtain ⟨t', tp', heq, htp', hiff⟩ := titleGo_spec (titleMsf pages)
      pages.length hlen2 (titleCandidates pages) [] 0
      (titleCandidates_lt pages) hpos
    refine ⟨pyReplace t' "\n".data " ".data, tp', ?_, htp', ?_⟩
    · unfold getTitle
      dsimp only
      have heq' : titleGo
          (pySort ((0 : Rat) :: (titleCandidates pages).map fun c => c.2.2))
          (titleCandidates pages) [] 0 = some (t', tp') := heq
      rw [heq']
    · rw [pyReplace_nl_empty_iff, hiff]
      simp [noTitleFragment, List.all_eq_true, Bool.not_eq_true']

/-- C7: for every non-empty document, `Paper` construction does not raise
(the `[-2]` access and the title-page access always succeed), and the
resulting title is empty exactly when no block qualifies as a title
fragment (hence non-empty when one does). -/
theorem C7_title_total (pages : List Page) (hne : pages ≠ []) :
    (parsePaper pages).isSome = true
      ∧ ((parsePaper pages).map PaperModel.title = some []
        ↔ noTitleFragment pages = true) := by
  obtain ⟨t, tp, hgt, htp, hiff⟩ := getTitle_spec pages hne
  unfold parsePaper
  rw [hgt]
  dsimp only
  have hpg : ∃ pg, pyIdx (pages.map Page.text) (tp : Int) = some pg := by
    rw [pyIdx_natCast, List.getElem?_map, List.getElem?_eq_getElem htp]
    exact ⟨_, rfl⟩
  obtain ⟨pg, hpg⟩ := hpg
  rw [hpg]
  refine ⟨rfl, ?_⟩
  simpa using hiff

/-- Witness for C7 at a one-page document with no text blocks. -/
theorem C7_witness :
    (parsePaper [⟨"x".data, []⟩]).isSome = true
      ∧ ((parsePaper [⟨"x".data, []⟩]).map PaperModel.title = some []
        ↔ noTitleFragment [⟨"x".data, []⟩] = true) :=
  C7_title_total [⟨"x".data, []⟩] (by decide)
